import Mathlib

/-!
Verification of the sui-leverage-lending-script SDK against its
natural-language specification.

The development shallowly embeds the computational core of the repository:

* `src/lib/suilend/suilend.ts` — borrow compounding (`calculateCompoundedBorrow`);
* `src/lib/suilend/calculators.ts` — portfolio metrics (`calculatePortfolioMetrics`)
  and per-deposit liquidation price (`calculateLiquidationPrice`);
* `src/protocols/suilend.ts` — `getMaxWithdrawableAmount`;
* `src/strategies/deleverage.ts` — `calculateDeleverageEstimate` and
  `buildDeleverageTransaction`;
* `src/sdk.ts` — the `leverage` / `deleverage` / `getAggregatedPortfolio`
  facade methods;
* `src/lib/utils/index.ts` — `formatUnits` / `parseUnits`;
* `src/lib/utils/coin.ts` — `normalizeCoinType`.

BigNumber.js values are modelled as exact rationals (`ℚ`), with the
distinguished value `new BigNumber(Infinity)` modelled by a dedicated
constructor.  JavaScript `bigint` values are modelled as `ℕ` (all amounts in
the source are non-negative), with `/` the truncating division of `bigint`,
and as `ℤ` where a subtraction can go negative.  JavaScript strings are
modelled as `List Char`.  Promise rejections and thrown exceptions are
modelled with `Except String`.
-/

namespace DefiDash

/-- A BigNumber.js value as produced by the metrics engine: a finite decimal
value (modelled exactly as a rational) or `new BigNumber(Infinity)`. -/
inductive BigNum where
  | fin (q : ℚ)
  | inf
deriving DecidableEq, Repr

/-! ## Borrow compounding — `src/lib/suilend/suilend.ts` -/

/-- `calculateCompoundedBorrow` from `src/lib/suilend/suilend.ts`:
if the origin cumulative rate is zero the raw amount is returned unchanged,
otherwise the raw amount is scaled by currentRate / initRate. -/
def calculateCompoundedBorrow (rawBorrowAmount cumulativeBorrowRateInit
    cumulativeBorrowRateCurrent : ℚ) : ℚ :=
  if cumulativeBorrowRateInit = 0 then rawBorrowAmount
  else rawBorrowAmount * (cumulativeBorrowRateCurrent / cumulativeBorrowRateInit)

/-! ## Portfolio metrics — `src/lib/suilend/calculators.ts` -/

/-- One entry of `parsedObligation.deposits` with the fields the calculators
read: the coin type, the USD value of the deposit, and the reserve
configuration LTV percentages. -/
structure DepositEntry where
  coinType : String
  depositedAmountUsd : ℚ
  openLtvPct : ℚ
  closeLtvPct : ℚ
deriving DecidableEq, Repr

/-- The fields of a parsed obligation read by `calculatePortfolioMetrics` and
`calculateLiquidationPrice`. -/
structure ParsedObligation where
  netValueUsd : ℚ
  depositedAmountUsd : ℚ
  borrowedAmountUsd : ℚ
  borrowLimitUsd : ℚ
  unhealthyBorrowValueUsd : ℚ
  weightedBorrowsUsd : ℚ
  deposits : List DepositEntry
deriving DecidableEq, Repr

/-- The metric fields of `PortfolioMetrics` that are functions of the
obligation alone.  The APY and annual-earnings fields of the source record
additionally depend on the reserve map and live reward streams (wall-clock
time) and are not modelled. -/
structure PortfolioMetrics where
  netValue : ℚ
  totalSupply : ℚ
  totalBorrow : ℚ
  borrowLimit : ℚ
  liquidationThreshold : ℚ
  healthFactor : BigNum
  weightedOpenLtv : ℚ
deriving DecidableEq, Repr

/-- `calculatePortfolioMetrics` from `src/lib/suilend/calculators.ts`
(the obligation-only fields; see `PortfolioMetrics`).  The health factor is
`Infinity` when weighted borrows equal 0 and the quotient
liquidationThreshold / weightedBorrows otherwise. -/
def calculatePortfolioMetrics (o : ParsedObligation) : PortfolioMetrics :=
  let weightedBorrows := o.weightedBorrowsUsd
  { netValue := o.netValueUsd
    totalSupply := o.depositedAmountUsd
    totalBorrow := o.borrowedAmountUsd
    borrowLimit := o.borrowLimitUsd
    liquidationThreshold := o.unhealthyBorrowValueUsd
    healthFactor :=
      if weightedBorrows = 0 then BigNum.inf
      else BigNum.fin (o.unhealthyBorrowValueUsd / weightedBorrows)
    weightedOpenLtv :=
      if 0 < o.depositedAmountUsd then
        o.deposits.foldl
          (fun acc d =>
            acc + d.depositedAmountUsd / o.depositedAmountUsd * (d.openLtvPct / 100))
          0
      else 0 }

/-- `calculateLiquidationPrice` from `src/lib/suilend/calculators.ts`.
Returns `none` for the JavaScript `null` and `some q` for a finite
BigNumber result.  Mirrors the source exactly: when the numerator
(weighted borrows minus the close-LTV-weighted value of the other deposits)
is at most 0 it returns `new BigNumber(0)`, i.e. `some 0`; when the
denominator is 0 it returns `null`. -/
def calculateLiquidationPrice (coinType : String) (amount : ℚ)
    (liquidationThreshold : ℚ) (o : ParsedObligation) : Option ℚ :=
  let totalWeightedBorrows := o.weightedBorrowsUsd
  let otherCollateralWeighted :=
    o.deposits.foldl
      (fun acc d =>
        if d.coinType = coinType then acc
        else acc + d.depositedAmountUsd * (d.closeLtvPct / 100))
      0
  let numerator := totalWeightedBorrows - otherCollateralWeighted
  if numerator ≤ 0 then some 0
  else
    let denominator := amount * liquidationThreshold
    if denominator = 0 then none
    else some (numerator / denominator)

/-! ## `getMaxWithdrawableAmount` — `src/protocols/suilend.ts` -/

/-- The data `getMaxWithdrawableAmount` obtains from the chain before it
computes: whether the account has obligation caps / an obligation / a deposit
in the queried reserve, the raw deposited cToken amount and its decimals, the
cToken exchange rate (already divided by 1e18), whether the obligation has
borrows, the USD borrow-capacity figures (already divided by 1e18), the
reserve price (already divided by 1e18) and the open-LTV percentage. -/
structure MaxWithdrawQuery where
  capsEmpty : Bool
  obligationMissing : Bool
  depositMissing : Bool
  depositedRaw : ℕ
  decimals : ℕ
  cTokenRate : ℚ
  borrowsEmpty : Bool
  allowedBorrowValueUsd : ℚ
  borrowedValueUsd : ℚ
  price : ℚ
  openLtvPct : ℚ
deriving DecidableEq, Repr

/-- The deposited amount in token units computed by `getMaxWithdrawableAmount`:
raw cToken amount scaled by decimals and by the cToken exchange rate. -/
def depositedAmountOf (s : MaxWithdrawQuery) : ℚ :=
  (s.depositedRaw : ℚ) / 10 ^ s.decimals * s.cTokenRate

/-- `getMaxWithdrawableAmount` from `src/protocols/suilend.ts` (lines
1095-1229), up to the final `toFixed(6)` string formatting, which only
renders the returned number.  The branch order follows the source: missing
caps / obligation / deposit return 0; with no borrows the full deposited
amount is returned; otherwise the excess borrow capacity is computed and a
non-positive excess returns 0 before price, then a zero price returns 0,
then a zero open LTV returns the full deposited amount, and finally the
excess-derived bound is taken min the deposited amount. -/
def getMaxWithdrawableAmount (s : MaxWithdrawQuery) : ℚ :=
  if s.capsEmpty then 0
  else if s.obligationMissing then 0
  else if s.depositMissing then 0
  else
    let depositedAmount := depositedAmountOf s
    if s.borrowsEmpty then depositedAmount
    else
      let excessValue := s.allowedBorrowValueUsd - s.borrowedValueUsd
      if excessValue ≤ 0 then 0
      else
        let safeValue := excessValue * (95 / 100)
        if s.price = 0 then 0
        else
          let ltv := s.openLtvPct / 100
          if ltv = 0 then depositedAmount
          else
            let maxWithdrawAmount :=
              if 0 < ltv then safeValue / (s.price * ltv) else depositedAmount
            min maxWithdrawAmount depositedAmount

/-! ## Deleverage strategy — `src/strategies/deleverage.ts` -/

/-- A swap-router quote: the input amount echoed back and the quoted output
amount, both `bigint`. -/
structure SwapQuote where
  amountIn : ℕ
  amountOut : ℕ
deriving DecidableEq, Repr

/-- The quote selected by
`quotes.sort((a, b) => Number(b.amountOut) - Number(a.amountOut))[0]`:
the first quote with the maximal output (the sort is stable, so ties keep
the earliest quote).  `none` when the list is empty. -/
def pickBestQuote (qs : List SwapQuote) : Option SwapQuote :=
  qs.foldl
    (fun best q =>
      match best with
      | none => some q
      | some b => if b.amountOut < q.amountOut then some q else some b)
    none

/-- The numeric fields of `DeleverageEstimate`.  `estimatedUsdcProfit` is an
integer because the source computes it with `bigint` subtraction, which can
go negative.  The display-only `totalProfitUsd` field (a float derived from
an external price oracle) is not modelled. -/
structure DeleverageEstimate where
  flashLoanUsdc : ℕ
  flashLoanFee : ℕ
  totalRepayment : ℕ
  swapAmount : ℕ
  keepCollateral : ℕ
  estimatedUsdcProfit : ℤ
deriving DecidableEq, Repr

/-- `calculateDeleverageEstimate` from `src/strategies/deleverage.ts` (lines
38-100).  `borrowAmount` is the position debt, `supplyAmount` the collateral,
`fullSwapQuotes` the router response for swapping the full collateral to
USDC, and `calculateFee` the flash-loan fee function of the external Scallop
client.  `.error` models the thrown exceptions: the explicit
"No swap quotes found" throw, and the `RangeError` a `bigint` division by
zero raises. -/
def calculateDeleverageEstimate (borrowAmount supplyAmount : ℕ)
    (fullSwapQuotes : List SwapQuote) (calculateFee : ℕ → ℕ) :
    Except String DeleverageEstimate :=
  let flashLoanUsdc := borrowAmount * 1005 / 1000
  let flashLoanFee := calculateFee flashLoanUsdc
  let totalRepayment := flashLoanUsdc + flashLoanFee
  let withdrawAmount := supplyAmount
  match pickBestQuote fullSwapQuotes with
  | none => .error "No swap quotes found"
  | some fullQuote =>
    let fullSwapOut := fullQuote.amountOut
    let fullSwapIn := fullQuote.amountIn
    if fullSwapOut = 0 then .error "RangeError: Division by zero"
    else
      let targetUsdcOut := totalRepayment * 102 / 100
      let requiredSwapIn := targetUsdcOut * fullSwapIn / fullSwapOut
      let actualSwapIn :=
        if withdrawAmount < requiredSwapIn then withdrawAmount else requiredSwapIn
      let keepCollateral := withdrawAmount - actualSwapIn
      if totalRepayment < fullSwapOut ∧ fullSwapIn = 0 then
        .error "RangeError: Division by zero"
      else
        .ok
          { flashLoanUsdc := flashLoanUsdc
            flashLoanFee := flashLoanFee
            totalRepayment := totalRepayment
            swapAmount := actualSwapIn
            keepCollateral := keepCollateral
            estimatedUsdcProfit :=
              if totalRepayment < fullSwapOut then
                (actualSwapIn * fullSwapOut / fullSwapIn : ℤ) - totalRepayment
              else 0 }

/-- One protocol call of the composed deleverage transaction plan. -/
inductive TxStep where
  | borrowFlashLoan (amount : ℕ)
  | refreshOracles (coinTypes : List String)
  | repayDebt (coinType : String)
  | withdrawCollateral (coinType : String) (amount : ℕ)
  | splitForSwap (amount : ℕ)
  | swap (quoteIn quoteOut : ℕ)
  | splitRepayment (amount : ℕ)
  | repayFlashLoan
  | transferRemaining
deriving DecidableEq, Repr

/-- `USDC_COIN_TYPE` from `src/types.ts`. -/
def USDC_COIN_TYPE : String :=
  "0xdba34672e30cb065b1f93e3ab55318768fd6fef66c15942c9f7cb846e2f900e7::usdc::USDC"

/-- `buildDeleverageTransaction` from `src/strategies/deleverage.ts` (lines
114-200) as the plan of protocol calls it records on the transaction, or the
exception it throws.  `swapQuotes` is the router response for the second
quote request (for `estimate.swapAmount`).  The source throws only when a
quote list is empty (or on a `bigint` division by zero inside the estimate);
it performs no comparison of the quoted output against the flash-loan
repayment. -/
def buildDeleverageTransaction (borrowAmount supplyAmount : ℕ)
    (supplyCoinType : String) (fullSwapQuotes swapQuotes : List SwapQuote)
    (calculateFee : ℕ → ℕ) : Except String (List TxStep) :=
  match calculateDeleverageEstimate borrowAmount supplyAmount fullSwapQuotes
      calculateFee with
  | .error e => .error e
  | .ok estimate =>
    match pickBestQuote swapQuotes with
    | none => .error "No swap quotes"
    | some bestQuote =>
      .ok
        [ TxStep.borrowFlashLoan estimate.flashLoanUsdc,
          TxStep.refreshOracles [supplyCoinType, USDC_COIN_TYPE],
          TxStep.repayDebt USDC_COIN_TYPE,
          TxStep.withdrawCollateral supplyCoinType supplyAmount,
          TxStep.splitForSwap estimate.swapAmount,
          TxStep.swap bestQuote.amountIn bestQuote.amountOut,
          TxStep.splitRepayment estimate.totalRepayment,
          TxStep.repayFlashLoan,
          TxStep.transferRemaining ]

/-! ## Facade — `src/sdk.ts` -/

/-- `StrategyResult` from `src/types.ts` (the fields the facade methods
write). -/
structure StrategyResult where
  success : Bool
  txDigest : Option String
  gasUsed : Option ℕ
  error : Option String
deriving DecidableEq, Repr

/-- The outcome of awaiting a JavaScript promise: a resolved value or a
rejection (equally, a thrown exception) carrying a message. -/
abbrev JsResult (α : Type) := Except String α

/-- The session state and external outcomes a `leverage` / `deleverage` call
observes: whether `initialize()` ran, whether a keypair is present, the
outcome of awaiting the build step, and the promises returned by
`dryRun` / `execute` (which resolve to a `StrategyResult` or reject). -/
structure SdkEnv where
  initialized : Bool
  hasKeypair : Bool
  buildOutcome : JsResult Unit
  dryRunOutcome : JsResult StrategyResult
  executeOutcome : JsResult StrategyResult

/-- `DefiDashSDK.leverage` (`src/sdk.ts` lines 301-330).  `ensureInitialized`
throws outside the `try` block; a missing keypair returns a failure result;
the `try` block catches a rejection of the awaited
`buildLeverageTransaction` call and converts it to a failure result; and the
final `return this.dryRun(tx)` / `return this.execute(tx)` are not awaited
inside the `try`, so those promises — including a possible rejection — pass
through the `catch` unhandled. -/
def leverage (env : SdkEnv) (dryRun : Bool) : JsResult StrategyResult :=
  if !env.initialized then
    .error "SDK not initialized. Call initialize() first."
  else if !env.hasKeypair then
    .ok
      { success := false, txDigest := none, gasUsed := none,
        error := some
          "Keypair required for execution. Use buildLeverageTransaction for browser." }
  else
    match env.buildOutcome with
    | .error e =>
      .ok { success := false, txDigest := none, gasUsed := none, error := some e }
    | .ok _ => if dryRun then env.dryRunOutcome else env.executeOutcome

/-- `DefiDashSDK.deleverage` (`src/sdk.ts` lines 338-367); identical control
flow to `leverage` with the deleverage builder and its keypair message. -/
def deleverage (env : SdkEnv) (dryRun : Bool) : JsResult StrategyResult :=
  if !env.initialized then
    .error "SDK not initialized. Call initialize() first."
  else if !env.hasKeypair then
    .ok
      { success := false, txDigest := none, gasUsed := none,
        error := some
          "Keypair required for execution. Use buildDeleverageTransaction for browser." }
  else
    match env.buildOutcome with
    | .error e =>
      .ok { success := false, txDigest := none, gasUsed := none, error := some e }
    | .ok _ => if dryRun then env.dryRunOutcome else env.executeOutcome

/-- One position row of an `AccountPortfolio` (content irrelevant to the
aggregation logic; the fields the default uses are the list itself). -/
structure PortfolioPosition where
  coinType : String
  valueUsd : ℚ
deriving DecidableEq, Repr

/-- `AccountPortfolio` from `src/types.ts` (the fields
`getAggregatedPortfolio` writes in its resilient default). -/
structure AccountPortfolio where
  protocol : String
  address : String
  healthFactor : BigNum
  netValueUsd : ℚ
  totalCollateralUsd : ℚ
  totalDebtUsd : ℚ
  positions : List PortfolioPosition
deriving DecidableEq, Repr

/-- The resilient default portfolio literal from
`DefiDashSDK.getAggregatedPortfolio`. -/
def defaultPortfolio (protocol address : String) : AccountPortfolio :=
  { protocol := protocol
    address := address
    healthFactor := BigNum.inf
    netValueUsd := 0
    totalCollateralUsd := 0
    totalDebtUsd := 0
    positions := [] }

/-- What `getAggregatedPortfolio` observes per protocol: `none` when
`this.protocols.get(p)` returns no adapter, `some (.error e)` when the
adapter call rejects, `some (.ok pf)` when it resolves. -/
def AdapterOutcome := Option (JsResult AccountPortfolio)

/-- The environment of one `getAggregatedPortfolio` call. -/
structure AggEnv where
  initialized : Bool
  address : String
  suilend : Option (JsResult AccountPortfolio)
  navi : Option (JsResult AccountPortfolio)

/-- The per-protocol arm of `getAggregatedPortfolio`: the fetched portfolio
when the adapter exists and resolves, the resilient default otherwise (the
`try` / `catch` around the awaited adapter call swallows the rejection). -/
def aggregateArm (protocol address : String)
    (outcome : Option (JsResult AccountPortfolio)) : AccountPortfolio :=
  match outcome with
  | some (.ok pf) => pf
  | _ => defaultPortfolio protocol address

/-- `DefiDashSDK.getAggregatedPortfolio` (`src/sdk.ts` lines 449-478):
after `ensureInitialized`, a `Promise.all` over the fixed protocol list
`[Suilend, Navi]` in which each arm catches its own failure and substitutes
the resilient default.  `Promise.all` preserves the order of the list. -/
def getAggregatedPortfolio (env : AggEnv) : JsResult (List AccountPortfolio) :=
  if !env.initialized then
    .error "SDK not initialized. Call initialize() first."
  else
    .ok
      [ aggregateArm "suilend" env.address env.suilend,
        aggregateArm "navi" env.address env.navi ]

/-! ## Unit conversion — `src/lib/utils/index.ts`

JavaScript strings are modelled as `List Char`.  The decimal rendering of a
non-negative integer (`amount.toString()` on a `bigint`) and the decimal
reading of a digit string (`BigInt(str)`) are modelled through `Nat.digits`.
-/

/-- The character of one decimal digit. -/
def digitChar (d : ℕ) : Char := Char.ofNat (48 + d)

/-- The numeric value of one decimal digit character. -/
def charVal (c : Char) : ℕ := c.toNat - 48

/-- `n.toString()` for a non-negative integer: its decimal digit characters,
most significant first ("0" for 0). -/
def natToString (n : ℕ) : List Char :=
  if n = 0 then ['0'] else (Nat.digits 10 n).reverse.map digitChar

/-- `BigInt(s)` on a decimal digit string (also the JavaScript value of the
empty string, 0). -/
def strToNat (s : List Char) : ℕ :=
  s.foldl (fun acc c => 10 * acc + charVal c) 0

/-- `s.padStart(n, "0")`. -/
def padStartZeros (s : List Char) (n : ℕ) : List Char :=
  List.replicate (n - s.length) '0' ++ s

/-- `s.replace(/\.?0+$/, "")`: when the string ends in at least one zero,
remove the maximal run of trailing zeros together with a single dot
immediately preceding the run; otherwise leave the string unchanged. -/
def stripTrailingZerosDot (s : List Char) : List Char :=
  if s.reverse.head? = some '0' then
    (let r := s.reverse.dropWhile (fun c => c = '0')
     if r.head? = some '.' then r.tail else r).reverse
  else s

/-- `formatUnits` from `src/lib/utils/index.ts` (the `toHuman` conversion):
render the raw amount, left-pad with zeros to at least `decimals + 1`
characters, insert the decimal point `decimals` places from the right, and
trim the trailing zeros (falling back to "0" when everything is trimmed). -/
def formatUnits (amount : ℕ) (decimals : ℕ) : List Char :=
  let s := natToString amount
  if decimals = 0 then s
  else
    let pad := padStartZeros s (decimals + 1)
    let transition := pad.length - decimals
    let res := stripTrailingZerosDot
      (pad.take transition ++ '.' :: pad.drop transition)
    if res = [] then ['0'] else res

/-- `parseUnits` from `src/lib/utils/index.ts` (the `toRaw` conversion):
split at the first dot (`split "."` keeps the text between the first and
second dot as the fraction), right-pad or truncate the fraction to exactly
`decimals` digits, and read the concatenation as an integer. -/
def parseUnits (amount : List Char) (decimals : ℕ) : ℕ :=
  let integer := amount.takeWhile (fun c => c ≠ '.')
  let fraction :=
    match amount.dropWhile (fun c => c ≠ '.') with
    | [] => []
    | _ :: t => t.takeWhile (fun c => c ≠ '.')
  let paddedFraction :=
    (fraction ++ List.replicate (decimals - fraction.length) '0').take decimals
  strToNat (integer ++ paddedFraction)

/-! ## Asset-identifier normalization — `src/lib/utils/coin.ts` -/

/-- `s.split("::")`: scan for the leftmost occurrence of "::", cut there, and
continue after it (so overlapping colons resolve leftmost-first, as in
JavaScript). -/
def splitSep : List Char → List (List Char)
  | [] => [[]]
  | [c] => [[c]]
  | c :: d :: rest =>
    if c = ':' ∧ d = ':' then [] :: splitSep rest
    else
      match splitSep (d :: rest) with
      | [] => [[c]]
      | p :: ps => (c :: p) :: ps

/-- Whether a character list contains the two-character separator "::"
(used only to state which inputs keep `normalizeCoinType` idempotent). -/
def hasSep : List Char → Bool
  | [] => false
  | [_] => false
  | c :: d :: rest => (c = ':' && d = ':') || hasSep (d :: rest)

/-- `s.replace("0x", "")`: remove the leftmost occurrence of "0x" (if any). -/
def replaceFirst0x : List Char → List Char
  | [] => []
  | c :: rest =>
    if c = '0' ∧ rest.head? = some 'x' then rest.tail
    else c :: replaceFirst0x rest

/-- `pkg.padStart(64, "0")`. -/
def padStart64 (s : List Char) : List Char :=
  List.replicate (64 - s.length) '0' ++ s

/-- `normalizeCoinType` from `src/lib/utils/coin.ts`: split on "::"; any
input without exactly three parts is returned unchanged; otherwise the first
part has its leftmost "0x" removed, is zero-padded to 64 characters, and the
identifier is reassembled as `0x<pkg>::<module>::<name>`. -/
def normalizeCoinType (s : List Char) : List Char :=
  match splitSep s with
  | [p0, p1, p2] =>
    '0' :: 'x' :: (padStart64 (replaceFirst0x p0) ++
      ':' :: ':' :: (p1 ++ ':' :: ':' :: p2))
  | _ => s

/-! ## Theorems for the claims -/

/-- C4: the compounded owed amount equals
rawBorrowAmount × (currentCumulativeRate / originCumulativeRate); when the
origin cumulative rate is 0 the owed amount is the raw amount unchanged; and
raw 1e18 with origin rate 1e18 and current rate 1.05e18 yields 1.05e18. -/
theorem compoundedBorrow_spec (raw init cur : ℚ) :
    (init ≠ 0 → calculateCompoundedBorrow raw init cur = raw * (cur / init)) ∧
    calculateCompoundedBorrow raw 0 cur = raw ∧
    calculateCompoundedBorrow (10 ^ 18) (10 ^ 18) (105 * 10 ^ 16) =
      105 * 10 ^ 16 := by
  refine ⟨fun h => ?_, ?_, ?_⟩
  · simp [calculateCompoundedBorrow, h]
  · simp [calculateCompoundedBorrow]
  · norm_num [calculateCompoundedBorrow]

/-- Witness for `compoundedBorrow_spec` at raw 7, origin 2, current 3. -/
theorem compoundedBorrow_spec_witness :
    calculateCompoundedBorrow 7 2 3 = 7 * (3 / 2) :=
  (compoundedBorrow_spec 7 2 3).1 (by norm_num)

/-- C5: the computed health factor is Infinity exactly when weighted borrows
are 0, and equals liquidationThresholdUsd / weightedBorrowsUsd otherwise. -/
theorem healthFactor_spec (o : ParsedObligation) :
    ((calculatePortfolioMetrics o).healthFactor = BigNum.inf ↔
      o.weightedBorrowsUsd = 0) ∧
    (o.weightedBorrowsUsd ≠ 0 →
      (calculatePortfolioMetrics o).healthFactor =
        BigNum.fin (o.unhealthyBorrowValueUsd / o.weightedBorrowsUsd)) := by
  constructor
  · constructor
    · intro h
      by_contra hw
      simp [calculatePortfolioMetrics, hw] at h
    · intro h
      simp [calculatePortfolioMetrics, h]
  · intro h
    simp [calculatePortfolioMetrics, h]

/-- Witness for `healthFactor_spec`: liquidation threshold 8, weighted
borrows 4 give health factor 2. -/
theorem healthFactor_spec_witness :
    (calculatePortfolioMetrics
      { netValueUsd := 0, depositedAmountUsd := 0, borrowedAmountUsd := 0,
        borrowLimitUsd := 0, unhealthyBorrowValueUsd := 8,
        weightedBorrowsUsd := 4, deposits := [] }).healthFactor =
      BigNum.fin (8 / 4) :=
  (healthFactor_spec _).2 (by norm_num)

/-- C2 (failing input): with weighted borrows 5 USD and one other deposit of
10 USD at close LTV 80 percent, the liquidation-price numerator is
5 − 8 = −3 ≤ 0, and `calculateLiquidationPrice` returns `new BigNumber(0)`
(here `some 0`) rather than the `null` that signals "no liquidation price". -/
theorem liquidationPrice_returns_zero_on_nonpositive_numerator :
    calculateLiquidationPrice "0x2::sui::SUI" 10 (8 / 10)
      { netValueUsd := 0, depositedAmountUsd := 0, borrowedAmountUsd := 0,
        borrowLimitUsd := 0, unhealthyBorrowValueUsd := 0,
        weightedBorrowsUsd := 5,
        deposits := [{ coinType := "0xa::usdc::USDC", depositedAmountUsd := 10,
                       openLtvPct := 70, closeLtvPct := 80 }] } = some 0 := by
  have h : ("0xa::usdc::USDC" : String) ≠ "0x2::sui::SUI" := by decide
  norm_num [calculateLiquidationPrice, h]

/-- C3 (counterexample): a deposit of 1.0 tokens (raw 1000000 at 6 decimals,
exchange rate 1) with open LTV 0 and existing debt whose excess borrow
capacity is non-positive (allowed 100 USD, borrowed 200 USD):
`getMaxWithdrawableAmount` returns 0, not the full deposited amount 1. -/
theorem maxWithdrawable_openLtvZero_counterexample :
    getMaxWithdrawableAmount
      { capsEmpty := false, obligationMissing := false, depositMissing := false,
        depositedRaw := 1000000, decimals := 6, cTokenRate := 1,
        borrowsEmpty := false, allowedBorrowValueUsd := 100,
        borrowedValueUsd := 200, price := 5, openLtvPct := 0 } = 0 ∧
    depositedAmountOf
      { capsEmpty := false, obligationMissing := false, depositMissing := false,
        depositedRaw := 1000000, decimals := 6, cTokenRate := 1,
        borrowsEmpty := false, allowedBorrowValueUsd := 100,
        borrowedValueUsd := 200, price := 5, openLtvPct := 0 } = 1 := by
  constructor
  · norm_num [getMaxWithdrawableAmount]
  · norm_num [depositedAmountOf]

/-- C3 (amended): for an account with caps, an obligation and a deposit in
the queried reserve and open LTV 0, the full deposited amount is returned
when the obligation has no borrows, and also with existing debt provided the
excess borrow capacity is positive and the price is nonzero; when the excess
is non-positive the function returns 0 before the open-LTV branch is
reached. -/
theorem maxWithdrawable_openLtvZero_amended (s : MaxWithdrawQuery)
    (hc : s.capsEmpty = false) (ho : s.obligationMissing = false)
    (hd : s.depositMissing = false) (hltv : s.openLtvPct = 0) :
    (s.borrowsEmpty = true → getMaxWithdrawableAmount s = depositedAmountOf s) ∧
    (s.borrowsEmpty = false →
      0 < s.allowedBorrowValueUsd - s.borrowedValueUsd → s.price ≠ 0 →
      getMaxWithdrawableAmount s = depositedAmountOf s) ∧
    (s.borrowsEmpty = false →
      s.allowedBorrowValueUsd - s.borrowedValueUsd ≤ 0 →
      getMaxWithdrawableAmount s = 0) := by
  refine ⟨fun hb => ?_, fun hb hex hp => ?_, fun hb hex => ?_⟩
  · simp [getMaxWithdrawableAmount, hc, ho, hd, hb]
  · simp [getMaxWithdrawableAmount, hc, ho, hd, hb, hp, hltv, not_le.mpr hex]
  · simp [getMaxWithdrawableAmount, hc, ho, hd, hb, hex]

/-- Witness for `maxWithdrawable_openLtvZero_amended`: open LTV 0, debt
present, positive excess capacity — the full deposit 2.0 is withdrawable. -/
theorem maxWithdrawable_openLtvZero_amended_witness :
    getMaxWithdrawableAmount
      { capsEmpty := false, obligationMissing := false, depositMissing := false,
        depositedRaw := 2000000, decimals := 6, cTokenRate := 1,
        borrowsEmpty := false, allowedBorrowValueUsd := 300,
        borrowedValueUsd := 200, price := 5, openLtvPct := 0 } =
      depositedAmountOf
        { capsEmpty := false, obligationMissing := false, depositMissing := false,
          depositedRaw := 2000000, decimals := 6, cTokenRate := 1,
          borrowsEmpty := false, allowedBorrowValueUsd := 300,
          borrowedValueUsd := 200, price := 5, openLtvPct := 0 } :=
  (maxWithdrawable_openLtvZero_amended _ rfl rfl rfl rfl).2.1 rfl
    (by norm_num) (by norm_num)

/-- C6: the deleverage estimate sizes the flash loan as debt × 1.005 (the
0.5 percent buffer, in bigint arithmetic), computes the swap input as
targetOutput × quotedFullInput / quotedFullOutput — where targetOutput is the
total flash-loan repayment with the 2 percent margin — capped at the
withdrawn collateral, and keeps the withdrawn collateral minus that capped
swap input. -/
theorem deleverageEstimate_spec (borrow supply : ℕ) (fq : List SwapQuote)
    (fee : ℕ → ℕ) (q : SwapQuote) (hq : pickBestQuote fq = some q)
    (hout : q.amountOut ≠ 0)
    (hdiv : ¬(borrow * 1005 / 1000 + fee (borrow * 1005 / 1000) < q.amountOut ∧
      q.amountIn = 0)) :
    ∃ est, calculateDeleverageEstimate borrow supply fq fee = Except.ok est ∧
      est.flashLoanUsdc = borrow * 1005 / 1000 ∧
      est.flashLoanFee = fee (borrow * 1005 / 1000) ∧
      est.totalRepayment = est.flashLoanUsdc + est.flashLoanFee ∧
      est.swapAmount =
        min (est.totalRepayment * 102 / 100 * q.amountIn / q.amountOut) supply ∧
      est.keepCollateral = supply - est.swapAmount := by
  simp only [calculateDeleverageEstimate, hq]
  rw [if_neg hout, if_neg hdiv]
  refine ⟨_, rfl, rfl, rfl, rfl, ?_, rfl⟩
  show (if supply < _ then supply else _) = _
  rcases Nat.lt_or_ge supply
      ((borrow * 1005 / 1000 + fee (borrow * 1005 / 1000)) * 102 / 100 *
        q.amountIn / q.amountOut) with h | h
  · rw [if_pos h, Nat.min_eq_right h.le]
  · rw [if_neg (not_lt.mpr h), Nat.min_eq_left h]

/-- Witness for `deleverageEstimate_spec`: debt 1000, collateral 2000, one
quote 2000 → 3000, a 1 percent fee function. -/
theorem deleverageEstimate_spec_witness :
    ∃ est,
      calculateDeleverageEstimate 1000 2000 [⟨2000, 3000⟩]
        (fun n => n / 100) = Except.ok est ∧
      est.flashLoanUsdc = 1000 * 1005 / 1000 ∧
      est.flashLoanFee = (fun n => n / 100) (1000 * 1005 / 1000) ∧
      est.totalRepayment = est.flashLoanUsdc + est.flashLoanFee ∧
      est.swapAmount = min (est.totalRepayment * 102 / 100 * 2000 / 3000) 2000 ∧
      est.keepCollateral = 2000 - est.swapAmount :=
  deleverageEstimate_spec 1000 2000 [⟨2000, 3000⟩] (fun n => n / 100)
    ⟨2000, 3000⟩ rfl (by decide) (by decide)

/-- C1 (counterexample): debt 1000000 and collateral 500 whose full-quote
output 100 is far below the total repayment 1005000, yet
`buildDeleverageTransaction` succeeds and emits a plan — the source contains
no InsufficientCollateral check at all. -/
theorem deleverage_no_insufficient_collateral_check :
    (buildDeleverageTransaction 1000000 500 "0x2::sui::SUI"
      [⟨500, 100⟩] [⟨100, 20⟩] (fun _ => 0)).isOk = true ∧
    (100 : ℕ) < 1000000 * 1005 / 1000 + 0 := by
  constructor
  · rfl
  · decide

/-- C1 (amended): when the full-collateral quote output is below the total
flash-loan repayment, `buildDeleverageTransaction` does not fail: the
estimate caps the swap input at the whole withdrawn collateral (keeping
zero collateral, with zero estimated profit) and a plan is still emitted.
The builder only throws when a quote list is empty or a quoted amount forces
a bigint division by zero. -/
theorem deleverage_shortfall_still_builds (borrow supply : ℕ) (ct : String)
    (fq sq : List SwapQuote) (fee : ℕ → ℕ) (q p : SwapQuote)
    (hq : pickBestQuote fq = some q) (hp : pickBestQuote sq = some p)
    (hin : q.amountIn = supply) (hout : q.amountOut ≠ 0)
    (hshort : q.amountOut < borrow * 1005 / 1000 + fee (borrow * 1005 / 1000)) :
    ∃ est, calculateDeleverageEstimate borrow supply fq fee = Except.ok est ∧
      est.swapAmount = supply ∧ est.keepCollateral = 0 ∧
      est.estimatedUsdcProfit = 0 ∧
      (buildDeleverageTransaction borrow supply ct fq sq fee).isOk = true := by
  have hdiv : ¬(borrow * 1005 / 1000 + fee (borrow * 1005 / 1000) <
      q.amountOut ∧ q.amountIn = 0) := by
    rintro ⟨h1, -⟩
    omega
  have hreq : supply ≤
      (borrow * 1005 / 1000 + fee (borrow * 1005 / 1000)) * 102 / 100 *
        q.amountIn / q.amountOut := by
    have htarget : borrow * 1005 / 1000 + fee (borrow * 1005 / 1000) ≤
        (borrow * 1005 / 1000 + fee (borrow * 1005 / 1000)) * 102 / 100 := by
      have h100 : (borrow * 1005 / 1000 + fee (borrow * 1005 / 1000)) * 100 ≤
          (borrow * 1005 / 1000 + fee (borrow * 1005 / 1000)) * 102 := by
        omega
      have := Nat.div_le_div_right (c := 100) h100
      omega
    have hmul : (q.amountOut + 1) * supply ≤
        (borrow * 1005 / 1000 + fee (borrow * 1005 / 1000)) * 102 / 100 *
          q.amountIn := by
      rw [hin]
      exact Nat.mul_le_mul_right supply (by omega)
    have h2 := Nat.div_le_div_right (c := q.amountOut) hmul
    have h3 : supply ≤ (q.amountOut + 1) * supply / q.amountOut := by
      have heq : (q.amountOut + 1) * supply = q.amountOut * supply + supply := by
        ring
      rw [heq, Nat.mul_add_div (Nat.pos_of_ne_zero hout)]
      exact Nat.le_add_right supply _
    exact le_trans h3 h2
  have hact : (if supply <
      (borrow * 1005 / 1000 + fee (borrow * 1005 / 1000)) * 102 / 100 *
        q.amountIn / q.amountOut then supply
      else (borrow * 1005 / 1000 + fee (borrow * 1005 / 1000)) * 102 / 100 *
        q.amountIn / q.amountOut) = supply := by
    split <;> omega
  have hest : calculateDeleverageEstimate borrow supply fq fee = Except.ok
      { flashLoanUsdc := borrow * 1005 / 1000
        flashLoanFee := fee (borrow * 1005 / 1000)
        totalRepayment := borrow * 1005 / 1000 + fee (borrow * 1005 / 1000)
        swapAmount := supply
        keepCollateral := 0
        estimatedUsdcProfit := 0 } := by
    simp only [calculateDeleverageEstimate, hq]
    rw [if_neg hout, if_neg hdiv, hact, Nat.sub_self,
      if_neg (show ¬(borrow * 1005 / 1000 + fee (borrow * 1005 / 1000) <
        q.amountOut) from by omega)]
  refine ⟨_, hest, rfl, rfl, rfl, ?_⟩
  simp only [buildDeleverageTransaction, hest, hp]
  rfl

/-- Witness for `deleverage_shortfall_still_builds`: debt 1000000,
collateral 500, full quote 500 → 100 (output far below the repayment
1005000), second quote present — a plan is still emitted with the whole
collateral swapped. -/
theorem deleverage_shortfall_still_builds_witness :
    ∃ est, calculateDeleverageEstimate 1000000 500 [⟨500, 100⟩]
        (fun _ => 0) = Except.ok est ∧
      est.swapAmount = 500 ∧ est.keepCollateral = 0 ∧
      est.estimatedUsdcProfit = 0 ∧
      (buildDeleverageTransaction 1000000 500 "0xa::sui::SUI"
        [⟨500, 100⟩] [⟨100, 20⟩] (fun _ => 0)).isOk = true :=
  deleverage_shortfall_still_builds 1000000 500 "0xa::sui::SUI"
    [⟨500, 100⟩] [⟨100, 20⟩] (fun _ => 0) ⟨500, 100⟩ ⟨100, 20⟩ rfl rfl rfl
    (by decide) (by decide)

/-- C9 (counterexample): calling `leverage` or `deleverage` on an
uninitialized session rejects with a thrown error — `ensureInitialized` runs
outside the try block — so not every invocation resolves to a
`{success, txId?, error?}` result. -/
theorem facade_uninitialized_rejects :
    (leverage
      { initialized := false, hasKeypair := true, buildOutcome := Except.ok (),
        dryRunOutcome := Except.ok ⟨true, none, none, none⟩,
        executeOutcome := Except.ok ⟨true, none, none, none⟩ } true).isOk
      = false ∧
    (deleverage
      { initialized := false, hasKeypair := true, buildOutcome := Except.ok (),
        dryRunOutcome := Except.ok ⟨true, none, none, none⟩,
        executeOutcome := Except.ok ⟨true, none, none, none⟩ } true).isOk
      = false :=
  ⟨rfl, rfl⟩

/-- C9 (amended): on an initialized session, a missing keypair and any
failure thrown while building the plan are returned as
`{success: false, error}`; the dry-run / execution promises are returned
as-is, so their reported failures are results but a transport-level
rejection inside them (and the uninitialized throw) escapes as an
exception. -/
theorem facade_result_amended (env : SdkEnv) (d : Bool)
    (hinit : env.initialized = true) :
    (env.hasKeypair = false →
      leverage env d = Except.ok ⟨false, none, none,
        some "Keypair required for execution. Use buildLeverageTransaction for browser."⟩ ∧
      deleverage env d = Except.ok ⟨false, none, none,
        some "Keypair required for execution. Use buildDeleverageTransaction for browser."⟩) ∧
    (∀ e, env.hasKeypair = true → env.buildOutcome = Except.error e →
      leverage env d = Except.ok ⟨false, none, none, some e⟩ ∧
      deleverage env d = Except.ok ⟨false, none, none, some e⟩) ∧
    (env.hasKeypair = true → env.buildOutcome = Except.ok () →
      leverage env d = (if d then env.dryRunOutcome else env.executeOutcome) ∧
      deleverage env d = (if d then env.dryRunOutcome else env.executeOutcome)) := by
  refine ⟨fun hk => ?_, fun e hk hb => ?_, fun hk hb => ?_⟩
  · constructor <;> simp [leverage, deleverage, hinit, hk]
  · constructor <;> simp [leverage, deleverage, hinit, hk, hb]
  · constructor <;> simp [leverage, deleverage, hinit, hk, hb]

/-- Witness for `facade_result_amended`: an initialized session with a
keypair whose build step throws "No position found to deleverage" gets a
failure result, not an exception. -/
theorem facade_result_amended_witness :
    leverage
      { initialized := true, hasKeypair := true,
        buildOutcome := Except.error "No position found to deleverage",
        dryRunOutcome := Except.ok ⟨true, none, none, none⟩,
        executeOutcome := Except.ok ⟨true, none, none, none⟩ } true =
      Except.ok ⟨false, none, none, some "No position found to deleverage"⟩ ∧
    deleverage
      { initialized := true, hasKeypair := true,
        buildOutcome := Except.error "No position found to deleverage",
        dryRunOutcome := Except.ok ⟨true, none, none, none⟩,
        executeOutcome := Except.ok ⟨true, none, none, none⟩ } true =
      Except.ok ⟨false, none, none, some "No position found to deleverage"⟩ :=
  (facade_result_amended _ true rfl).2.1 "No position found to deleverage"
    rfl rfl

/-- C10: on an initialized session `getAggregatedPortfolio` never rejects:
it resolves to exactly one portfolio per protocol in the fixed order
[Suilend, Navi], where an arm whose adapter is missing or whose fetch
rejects yields the resilient default — health factor Infinity, all USD
totals 0 and an empty positions list. -/
theorem aggregatedPortfolio_spec (env : AggEnv)
    (hinit : env.initialized = true) :
    getAggregatedPortfolio env =
      Except.ok [aggregateArm "suilend" env.address env.suilend,
        aggregateArm "navi" env.address env.navi] ∧
    (∀ protocol address outcome,
      (∀ pf, outcome ≠ some (Except.ok pf)) →
      aggregateArm protocol address outcome = defaultPortfolio protocol address) ∧
    (∀ protocol address,
      (defaultPortfolio protocol address).healthFactor = BigNum.inf ∧
      (defaultPortfolio protocol address).netValueUsd = 0 ∧
      (defaultPortfolio protocol address).totalCollateralUsd = 0 ∧
      (defaultPortfolio protocol address).totalDebtUsd = 0 ∧
      (defaultPortfolio protocol address).positions = []) := by
  refine ⟨by simp [getAggregatedPortfolio, hinit], ?_,
    fun protocol address => ⟨rfl, rfl, rfl, rfl, rfl⟩⟩
  intro protocol address outcome h
  match outcome with
  | none => rfl
  | some (Except.error e) => rfl
  | some (Except.ok pf) => exact absurd rfl (h pf)

/-- Witness for `aggregatedPortfolio_spec`: an initialized session whose
Suilend fetch rejects and whose Navi adapter is missing. -/
theorem aggregatedPortfolio_spec_witness :
    getAggregatedPortfolio
      { initialized := true, address := "0xabc",
        suilend := some (Except.error "network failure"), navi := none } =
      Except.ok
        [aggregateArm "suilend" "0xabc" (some (Except.error "network failure")),
         aggregateArm "navi" "0xabc" none] :=
  (aggregatedPortfolio_spec
    { initialized := true, address := "0xabc",
      suilend := some (Except.error "network failure"), navi := none } rfl).1

/-! ### Decimal-string lemmas for the unit-conversion round trip -/

theorem charVal_digitChar {d : ℕ} (hd : d < 10) : charVal (digitChar d) = d := by
  interval_cases d <;> decide

theorem toNat_digitChar {d : ℕ} (hd : d < 10) : (digitChar d).toNat = 48 + d := by
  interval_cases d <;> decide

/-- Every character of a rendered integer is a decimal digit. -/
theorem mem_natToString_digit {n : ℕ} {c : Char} (hc : c ∈ natToString n) :
    48 ≤ c.toNat ∧ c.toNat ≤ 57 := by
  unfold natToString at hc
  split at hc
  · rw [List.mem_singleton] at hc
    subst hc
    decide
  · obtain ⟨d, hd, rfl⟩ := List.mem_map.mp hc
    have hd10 : d < 10 := Nat.digits_lt_base (by norm_num) (List.mem_reverse.mp hd)
    rw [toNat_digitChar hd10]
    omega

theorem digit_ne_dot {c : Char} (h : 48 ≤ c.toNat ∧ c.toNat ≤ 57) : c ≠ '.' := by
  rintro rfl
  exact absurd h (by decide)

theorem foldl_charVal (t : List Char) (acc : ℕ) :
    t.foldl (fun a c => 10 * a + charVal c) acc
      = acc * 10 ^ t.length + strToNat t := by
  induction t generalizing acc with
  | nil => simp [strToNat]
  | cons c t ih =>
    show List.foldl _ (10 * acc + charVal c) t
      = acc * 10 ^ (t.length + 1) + strToNat (c :: t)
    rw [ih]
    have hs : strToNat (c :: t) = charVal c * 10 ^ t.length + strToNat t := by
      show List.foldl _ (10 * 0 + charVal c) t = _
      rw [ih]
      ring
    rw [hs]
    ring

theorem strToNat_append (a b : List Char) :
    strToNat (a ++ b) = strToNat a * 10 ^ b.length + strToNat b := by
  show List.foldl _ 0 (a ++ b) = _
  rw [List.foldl_append]
  exact foldl_charVal b (strToNat a)

theorem strToNat_replicate_zero (k : ℕ) :
    strToNat (List.replicate k '0') = 0 := by
  induction k with
  | zero => rfl
  | succ k ih =>
    show List.foldl _ (10 * 0 + charVal '0') (List.replicate k '0') = 0
    have h0 : 10 * 0 + charVal '0' = 0 := by decide
    rw [h0]
    exact ih

theorem strToNat_zeros_append (k : ℕ) (s : List Char) :
    strToNat (List.replicate k '0' ++ s) = strToNat s := by
  rw [strToNat_append, strToNat_replicate_zero, zero_mul, zero_add]

theorem strToNat_natToString (n : ℕ) : strToNat (natToString n) = n := by
  by_cases h : n = 0
  · subst h
    decide
  · unfold natToString
    rw [if_neg h]
    have key : ∀ l : List ℕ, (∀ d ∈ l, d < 10) →
        strToNat (l.reverse.map digitChar) = Nat.ofDigits 10 l := by
      intro l
      induction l with
      | nil => intro _; rfl
      | cons d t ih =>
        intro hl
        have hd : d < 10 := hl d (List.mem_cons_self d t)
        have ht : ∀ x ∈ t, x < 10 := fun x hx => hl x (List.mem_cons_of_mem d hx)
        rw [List.reverse_cons, List.map_append, strToNat_append, ih ht,
          Nat.ofDigits_cons]
        have hone : strToNat (List.map digitChar [d]) = d := by
          show 10 * 0 + charVal (digitChar d) = d
          rw [charVal_digitChar hd]
          ring
        rw [hone]
        simp only [List.map_cons, List.map_nil, List.length_cons,
          List.length_nil]
        ring
    rw [key _ (fun d hd => Nat.digits_lt_base (by norm_num) hd)]
    exact Nat.ofDigits_digits 10 n

theorem takeWhile_append_cons {p : Char → Bool} (a : List Char) (c : Char)
    (b : List Char) (ha : ∀ x ∈ a, p x = true) (hc : p c = false) :
    (a ++ c :: b).takeWhile p = a := by
  induction a with
  | nil =>
    simp only [List.nil_append, List.takeWhile_cons, hc]
    rfl
  | cons x t ih =>
    rw [List.cons_append, List.takeWhile_cons,
      if_pos (ha x (List.mem_cons_self x t)),
      ih (fun y hy => ha y (List.mem_cons_of_mem x hy))]

theorem dropWhile_append_cons {p : Char → Bool} (a : List Char) (c : Char)
    (b : List Char) (ha : ∀ x ∈ a, p x = true) (hc : p c = false) :
    (a ++ c :: b).dropWhile p = c :: b := by
  induction a with
  | nil =>
    simp only [List.nil_append, List.dropWhile_cons, hc]
    rfl
  | cons x t ih =>
    rw [List.cons_append, List.dropWhile_cons,
      if_pos (ha x (List.mem_cons_self x t)),
      ih (fun y hy => ha y (List.mem_cons_of_mem x hy))]

theorem dropWhile_append_of_all {p : Char → Bool} (a b : List Char)
    (ha : ∀ x ∈ a, p x = true) :
    (a ++ b).dropWhile p = b.dropWhile p := by
  induction a with
  | nil => rfl
  | cons x t ih =>
    rw [List.cons_append, List.dropWhile_cons,
      if_pos (ha x (List.mem_cons_self x t)),
      ih (fun y hy => ha y (List.mem_cons_of_mem x hy))]

/-- Any character list splits as a prefix with no trailing zero plus a run
of trailing zeros. -/
theorem trailing_zero_decomp (F : List Char) :
    ∃ F' k, F' ++ List.replicate k '0' = F ∧
      F'.reverse.head? ≠ some '0' ∧
      F'.length + k = F.length ∧
      ∀ c ∈ F', c ∈ F := by
  refine ⟨(F.reverse.dropWhile (fun c => decide (c = '0'))).reverse,
    (F.reverse.takeWhile (fun c => decide (c = '0'))).length, ?_, ?_, ?_, ?_⟩
  · have hTD := List.takeWhile_append_dropWhile
      (fun c => decide (c = '0')) F.reverse
    have hTall : ∀ c ∈ F.reverse.takeWhile (fun c => decide (c = '0')),
        c = '0' := fun c hc => of_decide_eq_true
      (@List.mem_takeWhile_imp Char (fun x => decide (x = '0')) F.reverse c hc)
    have h2 : (F.reverse.takeWhile (fun c => decide (c = '0'))).reverse
        = List.replicate
            (F.reverse.takeWhile (fun c => decide (c = '0'))).length '0' := by
      conv_lhs => rw [List.eq_replicate_of_mem hTall]
      rw [List.reverse_replicate]
    conv_rhs => rw [← List.reverse_reverse F, ← hTD, List.reverse_append, h2]
  · rw [List.reverse_reverse]
    have hmatch := List.head?_dropWhile_not (fun c => decide (c = '0')) F.reverse
    cases hh : (F.reverse.dropWhile (fun c => decide (c = '0'))).head? with
    | none => simp
    | some x =>
      rw [hh] at hmatch
      intro hcontra
      rw [Option.some_inj] at hcontra
      rw [hcontra] at hmatch
      exact absurd hmatch (by decide)
  · have hTD := congrArg List.length (List.takeWhile_append_dropWhile
      (fun c => decide (c = '0')) F.reverse)
    simp only [List.length_append, List.length_reverse] at *
    omega
  · intro c hc
    exact List.mem_reverse.mp
      ((List.dropWhile_sublist _).subset (List.mem_reverse.mp hc))

/-- Trailing-zero trimming of a digit string with one inserted dot, on the
explicit decomposition of the fraction: the trim keeps the zero-free prefix
and drops the dot exactly when the whole fraction was zeros. -/
theorem strip_spec (I F' : List Char) (k : ℕ)
    (hF'dig : ∀ c ∈ F', 48 ≤ c.toNat ∧ c.toNat ≤ 57)
    (hlast : F'.reverse.head? ≠ some '0')
    (hne : F' = [] → 0 < k) :
    stripTrailingZerosDot (I ++ '.' :: (F' ++ List.replicate k '0')) =
      if F' = [] then I else I ++ '.' :: F' := by
  have hrev : (I ++ '.' :: (F' ++ List.replicate k '0')).reverse
      = List.replicate k '0' ++ (F'.reverse ++ '.' :: I.reverse) := by
    rw [List.reverse_append, List.reverse_cons, List.reverse_append,
      List.reverse_replicate, List.append_assoc, List.append_assoc,
      List.singleton_append]
  unfold stripTrailingZerosDot
  show (if (I ++ '.' :: (F' ++ List.replicate k '0')).reverse.head? = some '0'
      then (if ((I ++ '.' :: (F' ++ List.replicate k '0')).reverse.dropWhile
            (fun c => decide (c = '0'))).head? = some '.'
        then ((I ++ '.' :: (F' ++ List.replicate k '0')).reverse.dropWhile
            (fun c => decide (c = '0'))).tail
        else ((I ++ '.' :: (F' ++ List.replicate k '0')).reverse.dropWhile
            (fun c => decide (c = '0')))).reverse
      else I ++ '.' :: (F' ++ List.replicate k '0')) = _
  rw [hrev]
  cases k with
  | zero =>
    have hF'ne : F' ≠ [] := fun h => absurd (hne h) (lt_irrefl 0)
    simp only [List.replicate_zero, List.nil_append, List.append_nil]
    rcases hFr : F'.reverse with _ | ⟨c, rest⟩
    · exact absurd (List.reverse_eq_nil_iff.mp hFr) hF'ne
    · have hcne : c ≠ '0' := fun h => hlast (by rw [hFr, List.head?_cons, h])
      rw [List.cons_append, List.head?_cons,
        if_neg (by simpa using hcne), if_neg hF'ne]
  | succ k' =>
    have hdrop : List.dropWhile (fun c => decide (c = '0'))
        (List.replicate (k' + 1) '0' ++ (F'.reverse ++ '.' :: I.reverse))
        = List.dropWhile (fun c => decide (c = '0'))
            (F'.reverse ++ '.' :: I.reverse) :=
      dropWhile_append_of_all _ _ (fun x hx => by
        rw [List.eq_of_mem_replicate hx]
        decide)
    have hzdot : ¬((fun c => decide (c = '0')) '.' = true) := by decide
    rw [List.replicate_succ, List.cons_append, List.head?_cons, if_pos rfl,
      ← List.cons_append, ← List.replicate_succ, hdrop]
    rcases hFr : F'.reverse with _ | ⟨c, rest⟩
    · have hF'nil : F' = [] := List.reverse_eq_nil_iff.mp hFr
      simp only [List.nil_append]
      rw [List.dropWhile_cons, if_neg hzdot, List.head?_cons, if_pos rfl,
        List.tail_cons, List.reverse_reverse, if_pos hF'nil]
    · have hcdig : 48 ≤ c.toNat ∧ c.toNat ≤ 57 := by
        refine hF'dig c ?_
        rw [← List.mem_reverse, hFr]
        exact List.mem_cons_self c rest
      have hcne0 : c ≠ '0' := fun h => hlast (by rw [hFr, List.head?_cons, h])
      have hzc : ¬((fun c => decide (c = '0')) c = true) := by
        simpa using hcne0
      have hcnedot : c ≠ '.' := digit_ne_dot hcdig
      have hF'ne : F' ≠ [] := by
        intro h
        rw [h] at hFr
        simp at hFr
      rw [List.cons_append, List.dropWhile_cons, if_neg hzc, List.head?_cons,
        if_neg (by simpa using hcnedot), ← List.cons_append, ← hFr,
        List.reverse_append, List.reverse_cons, List.reverse_reverse,
        List.reverse_reverse, List.append_assoc, List.singleton_append,
        if_neg hF'ne]

/-- Parsing a digit string with one dot: the integer and fraction parts are
read back with the fraction right-padded to the requested decimals. -/
theorem parse_dotted (I F' : List Char) (d : ℕ)
    (hIdig : ∀ c ∈ I, 48 ≤ c.toNat ∧ c.toNat ≤ 57)
    (hFdig : ∀ c ∈ F', 48 ≤ c.toNat ∧ c.toNat ≤ 57)
    (hlen : F'.length ≤ d) :
    parseUnits (I ++ '.' :: F') d =
      strToNat (I ++ (F' ++ List.replicate (d - F'.length) '0')) := by
  unfold parseUnits
  have hIall : ∀ x ∈ I, (fun c => decide (c ≠ '.')) x = true :=
    fun x hx => decide_eq_true (digit_ne_dot (hIdig x hx))
  have hdot : (fun c => decide (c ≠ '.')) '.' = false := by decide
  have hTW : F'.takeWhile (fun c => decide (c ≠ '.')) = F' :=
    List.takeWhile_eq_self_iff.mpr
      (fun x hx => decide_eq_true (digit_ne_dot (hFdig x hx)))
  rw [takeWhile_append_cons I '.' F' hIall hdot,
    dropWhile_append_cons I '.' F' hIall hdot]
  show strToNat (I ++ ((F'.takeWhile (fun c => decide (c ≠ '.'))) ++
    List.replicate (d - (F'.takeWhile (fun c => decide (c ≠ '.'))).length)
      '0').take d) = _
  rw [hTW, List.take_of_length_le
    (by rw [List.length_append, List.length_replicate]; omega)]

/-- Parsing a dot-free digit string: the fraction is empty and is padded to
`d` zeros. -/
theorem parse_undotted (I : List Char) (d : ℕ)
    (hIdig : ∀ c ∈ I, 48 ≤ c.toNat ∧ c.toNat ≤ 57) :
    parseUnits I d = strToNat (I ++ List.replicate d '0') := by
  unfold parseUnits
  have hIall : ∀ x ∈ I, (fun c => decide (c ≠ '.')) x = true :=
    fun x hx => decide_eq_true (digit_ne_dot (hIdig x hx))
  rw [List.takeWhile_eq_self_iff.mpr hIall, List.dropWhile_eq_nil_iff.mpr hIall]
  show strToNat (I ++ (([] : List Char) ++ _).take d) = _
  rw [List.nil_append, List.length_nil, Nat.sub_zero,
    List.take_of_length_le (le_of_eq (List.length_replicate d '0'))]

/-- C7: the unit conversions round-trip — parsing the human-readable
rendering of any non-negative raw integer at any number of decimals
recovers the raw integer exactly. -/
theorem parseUnits_formatUnits (raw d : ℕ) :
    parseUnits (formatUnits raw d) d = raw := by
  have hdig : ∀ c ∈ natToString raw, 48 ≤ c.toNat ∧ c.toNat ≤ 57 :=
    fun c hc => mem_natToString_digit hc
  by_cases hd : d = 0
  · subst hd
    unfold formatUnits
    rw [if_pos rfl]
    rw [parse_undotted (natToString raw) 0 hdig]
    rw [List.replicate_zero, List.append_nil]
    exact strToNat_natToString raw
  · have hpaddig : ∀ c ∈ padStartZeros (natToString raw) (d + 1),
        48 ≤ c.toNat ∧ c.toNat ≤ 57 := by
      intro c hc
      unfold padStartZeros at hc
      rcases List.mem_append.mp hc with h | h
      · rw [List.eq_of_mem_replicate h]
        decide
      · exact hdig c h
    have hpadval : strToNat (padStartZeros (natToString raw) (d + 1)) = raw := by
      unfold padStartZeros
      rw [strToNat_zeros_append]
      exact strToNat_natToString raw
    have hpadlen : d + 1 ≤ (padStartZeros (natToString raw) (d + 1)).length := by
      unfold padStartZeros
      rw [List.length_append, List.length_replicate]
      omega
    set pad := padStartZeros (natToString raw) (d + 1) with hpad
    set t := pad.length - d with htdef
    set I := pad.take t with hI
    set F := pad.drop t with hF
    have hIF : I ++ F = pad := List.take_append_drop t pad
    have hIlen : I.length = t := by
      rw [hI, List.length_take]
      omega
    have hFlen : F.length = d := by
      rw [hF, List.length_drop]
      omega
    have hIdig : ∀ c ∈ I, 48 ≤ c.toNat ∧ c.toNat ≤ 57 := by
      intro c hc
      refine hpaddig c ?_
      rw [← hIF]
      exact List.mem_append_left _ hc
    have hFdig : ∀ c ∈ F, 48 ≤ c.toNat ∧ c.toNat ≤ 57 := by
      intro c hc
      refine hpaddig c ?_
      rw [← hIF]
      exact List.mem_append_right _ hc
    have hFne : F ≠ [] := by
      intro h
      rw [h] at hFlen
      simp at hFlen
      omega
    obtain ⟨F', k, hFeq, hlast, hklen, hFsub⟩ := trailing_zero_decomp F
    have hFdig' : ∀ c ∈ F', 48 ≤ c.toNat ∧ c.toNat ≤ 57 :=
      fun c hc => hFdig c (hFsub c hc)
    have hF'len : F'.length ≤ d := by omega
    have hk : F' = [] → 0 < k := by
      intro h
      rw [h] at hklen
      simp only [List.length_nil, Nat.zero_add] at hklen
      omega
    have hstrip := strip_spec I F' k hFdig' hlast hk
    rw [hFeq] at hstrip
    have hFeq' : F' ++ List.replicate (d - F'.length) '0' = F := by
      rw [show d - F'.length = k from by omega]
      exact hFeq
    have hval : strToNat (I ++ (F' ++
        List.replicate (d - F'.length) '0')) = raw := by
      rw [hFeq', hIF]
      exact hpadval
    have hfmt : formatUnits raw d =
        (if stripTrailingZerosDot (I ++ '.' :: F) = []
          then ['0'] else stripTrailingZerosDot (I ++ '.' :: F)) := by
      unfold formatUnits
      rw [if_neg hd]
    have hIne : I ≠ [] := by
      intro h
      rw [h] at hIlen
      simp at hIlen
      omega
    rw [hfmt, hstrip]
    rcases hF' : F' with _ | ⟨f0, Ft⟩
    · rw [if_pos rfl, if_neg hIne, parse_undotted I d hIdig]
      rw [hF'] at hval
      simpa using hval
    · rw [if_neg (List.cons_ne_nil f0 Ft), if_neg (by
        intro h
        exact hIne (List.append_eq_nil.mp h).1)]
      rw [← hF']
      rw [parse_dotted I F' d hIdig hFdig' hF'len]
      exact hval

/-! ### Lemmas about the "::" splitter for identifier normalization -/

theorem splitSep_two (c d : Char) (rest : List Char) :
    splitSep (c :: d :: rest) =
      if c = ':' ∧ d = ':' then [] :: splitSep rest
      else
        match splitSep (d :: rest) with
        | [] => [[c]]
        | p :: ps => (c :: p) :: ps := rfl

theorem splitSep_ne_nil (l : List Char) : splitSep l ≠ [] := by
  match l with
  | [] => simp [splitSep]
  | [c] => simp [splitSep]
  | c :: d :: rest =>
    rw [splitSep_two]
    split
    · simp
    · split <;> simp

/-- A nonempty first component of a split starts with the head of the
input. -/
theorem splitSep_head_cons {l : List Char} {x : Char} {p' : List Char}
    {ps : List (List Char)} (h : splitSep l = (x :: p') :: ps) :
    l.head? = some x := by
  match l with
  | [] =>
    rw [show splitSep [] = [[]] from rfl] at h
    injection h with h1 h2
    exact absurd h1.symm (List.cons_ne_nil x p')
  | [c] =>
    rw [show splitSep [c] = [[c]] from rfl] at h
    injection h with h1 h2
    injection h1 with h3 h4
    rw [List.head?_cons, h3]
  | c :: d :: rest =>
    rw [splitSep_two] at h
    by_cases hcd : c = ':' ∧ d = ':'
    · rw [if_pos hcd] at h
      injection h with h1 h2
      exact absurd h1.symm (List.cons_ne_nil x p')
    · rw [if_neg hcd] at h
      rcases hS : splitSep (d :: rest) with _ | ⟨p0, ps0⟩
      · exact absurd hS (splitSep_ne_nil _)
      · rw [hS] at h
        injection h with h1 h2
        injection h1 with h3 h4
        rw [List.head?_cons, h3]

/-- An empty first component of a split with at least two components means
the input starts with the separator. -/
theorem splitSep_first_nil {l : List Char} {q : List Char}
    {qs : List (List Char)} (h : splitSep l = [] :: q :: qs) :
    l.head? = some ':' := by
  match l with
  | [] =>
    rw [show splitSep [] = [[]] from rfl] at h
    injection h with h1 h2
    exact absurd h2.symm (List.cons_ne_nil q qs)
  | [c] =>
    rw [show splitSep [c] = [[c]] from rfl] at h
    injection h with h1 h2
    exact absurd h2.symm (List.cons_ne_nil q qs)
  | c :: d :: rest =>
    by_cases hcd : c = ':' ∧ d = ':'
    · rw [List.head?_cons, hcd.1]
    · rw [splitSep_two, if_neg hcd] at h
      rcases hS : splitSep (d :: rest) with _ | ⟨p0, ps0⟩
      · exact absurd hS (splitSep_ne_nil _)
      · rw [hS] at h
        injection h with h1 h2
        exact absurd h1 (List.cons_ne_nil c p0)

/-- Every component of a split is free of "::", and every component except
the last does not end with a colon. -/
theorem splitSep_parts_aux (n : ℕ) : ∀ l : List Char, l.length ≤ n →
    (∀ p ∈ splitSep l, hasSep p = false) ∧
    (∀ p ∈ (splitSep l).dropLast, p.getLast? ≠ some ':') := by
  induction n with
  | zero =>
    intro l hl
    have hnil : l = [] := List.length_eq_zero.mp (Nat.le_zero.mp hl)
    subst hnil
    refine ⟨fun p hp => ?_, fun p hp => ?_⟩
    · rw [show splitSep [] = [[]] from rfl, List.mem_singleton] at hp
      subst hp
      rfl
    · rw [show splitSep [] = [[]] from rfl, List.dropLast_single] at hp
      simp at hp
  | succ n ih =>
    intro l hl
    match l with
    | [] =>
      refine ⟨fun p hp => ?_, fun p hp => ?_⟩
      · rw [show splitSep [] = [[]] from rfl, List.mem_singleton] at hp
        subst hp
        rfl
      · rw [show splitSep [] = [[]] from rfl, List.dropLast_single] at hp
        simp at hp
    | [c] =>
      refine ⟨fun p hp => ?_, fun p hp => ?_⟩
      · rw [show splitSep [c] = [[c]] from rfl, List.mem_singleton] at hp
        subst hp
        rfl
      · rw [show splitSep [c] = [[c]] from rfl, List.dropLast_single] at hp
        simp at hp
    | c :: d :: rest =>
      by_cases hcd : c = ':' ∧ d = ':'
      · obtain ⟨rfl, rfl⟩ := hcd
        have hrest : rest.length ≤ n := by
          simp only [List.length_cons] at hl
          omega
        obtain ⟨iha, ihb⟩ := ih rest hrest
        rw [splitSep_two, if_pos ⟨rfl, rfl⟩]
        refine ⟨fun p hp => ?_, fun p hp => ?_⟩
        · rcases List.mem_cons.mp hp with rfl | hp
          · rfl
          · exact iha p hp
        · rw [List.dropLast_cons_of_ne_nil (splitSep_ne_nil rest)] at hp
          rcases List.mem_cons.mp hp with rfl | hp
          · simp
          · exact ihb p hp
      · have hlen : (d :: rest).length ≤ n := by
          simp only [List.length_cons] at hl ⊢
          omega
        obtain ⟨iha, ihb⟩ := ih (d :: rest) hlen
        rcases hS : splitSep (d :: rest) with _ | ⟨p0, ps0⟩
        · exact absurd hS (splitSep_ne_nil _)
        · have heq : splitSep (c :: d :: rest) = (c :: p0) :: ps0 := by
            rw [splitSep_two, if_neg hcd, hS]
          rw [heq]
          have hp0mem : p0 ∈ splitSep (d :: rest) := by
            rw [hS]
            exact List.mem_cons_self _ _
          have hp0 : hasSep p0 = false := iha p0 hp0mem
          refine ⟨fun p hp => ?_, fun p hp => ?_⟩
          · rcases List.mem_cons.mp hp with rfl | hp
            · rcases hp0e : p0 with _ | ⟨x, p0'⟩
              · rfl
              · have hx : x = d := by
                  rw [hp0e] at hS
                  have := splitSep_head_cons hS
                  rw [List.head?_cons, Option.some_inj] at this
                  exact this.symm
                subst hx
                rw [hp0e] at hp0
                show ((decide (c = ':') && decide (x = ':')) ||
                  hasSep (x :: p0')) = false
                rcases not_and_or.mp hcd with hcn | hdn
                · simp [hcn, hp0]
                · simp [hdn, hp0]
            · refine iha p ?_
              rw [hS]
              exact List.mem_cons_of_mem _ hp
          · rcases hps0 : ps0 with _ | ⟨q, qs⟩
            · rw [hps0, List.dropLast_single] at hp
              simp at hp
            · rw [hps0, List.dropLast_cons₂] at hp
              rcases List.mem_cons.mp hp with rfl | hp
              · rcases hp0e : p0 with _ | ⟨x, p0'⟩
                · rw [hp0e, hps0] at hS
                  have hd : (d :: rest).head? = some ':' :=
                    splitSep_first_nil hS
                  rw [List.head?_cons, Option.some_inj] at hd
                  have hc : c ≠ ':' := fun h => hcd ⟨h, hd⟩
                  rw [List.getLast?_singleton]
                  simpa using hc
                · have hp0d : p0 ∈ (splitSep (d :: rest)).dropLast := by
                    rw [hS, hps0, List.dropLast_cons₂]
                    exact List.mem_cons_self _ _
                  have hlast := ihb p0 hp0d
                  rw [hp0e] at hlast
                  rw [List.getLast?_cons_cons]
                  exact hlast
              · refine ihb p ?_
                rw [hS, hps0, List.dropLast_cons₂]
                exact List.mem_cons_of_mem _ hp

theorem splitSep_parts (l : List Char) :
    (∀ p ∈ splitSep l, hasSep p = false) ∧
    (∀ p ∈ (splitSep l).dropLast, p.getLast? ≠ some ':') :=
  splitSep_parts_aux l.length l le_rfl

theorem padStart64_of_ge {s : List Char} (h : 64 ≤ s.length) :
    padStart64 s = s := by
  unfold padStart64
  rw [show 64 - s.length = 0 from by omega, List.replicate_zero,
    List.nil_append]

theorem hasSep_false_of_no_colon : ∀ {l : List Char}, ':' ∉ l →
    hasSep l = false
  | [], _ => rfl
  | [_], _ => rfl
  | c :: d :: rest, h => by
    have hc : ¬(c = ':') := fun hc => h (by
      rw [← hc]
      exact List.mem_cons_self c _)
    have hrest : ':' ∉ (d :: rest) := fun hm => h (List.mem_cons_of_mem c hm)
    show ((decide (c = ':') && decide (d = ':')) || hasSep (d :: rest)) = false
    rw [hasSep_false_of_no_colon hrest]
    simp [hc]

theorem getLast?_ne_colon_of_no_colon {l : List Char} (h : ':' ∉ l) :
    l.getLast? ≠ some ':' := by
  intro hg
  rw [List.getLast?_eq_head?_reverse] at hg
  rcases hr : l.reverse with _ | ⟨x, xs⟩
  · rw [hr] at hg
    simp at hg
  · rw [hr, List.head?_cons, Option.some_inj] at hg
    refine h (List.mem_reverse.mp ?_)
    rw [hr, hg]
    exact List.mem_cons_self _ _

theorem splitSep_of_no_sep : ∀ {l : List Char}, hasSep l = false →
    splitSep l = [l]
  | [], _ => rfl
  | [_], _ => rfl
  | c :: d :: rest, h => by
    have h' : ((decide (c = ':') && decide (d = ':')) ||
        hasSep (d :: rest)) = false := h
    obtain ⟨hxy, hrest⟩ := Bool.or_eq_false_iff.mp h'
    have hcd : ¬(c = ':' ∧ d = ':') := by
      rintro ⟨h1, h2⟩
      simp [h1, h2] at hxy
    rw [splitSep_two, if_neg hcd, splitSep_of_no_sep hrest]

/-- Splitting a string that starts with a separator-free, non-colon-ending
block followed by "::": the block is the first component. -/
theorem splitSep_append_sep : ∀ (b tail : List Char), hasSep b = false →
    b.getLast? ≠ some ':' →
    splitSep (b ++ ':' :: ':' :: tail) = b :: splitSep tail
  | [], tail, _, _ => by
    rw [List.nil_append, splitSep_two, if_pos ⟨rfl, rfl⟩]
  | [x], tail, _, hlast => by
    have hx : ¬(x = ':') := fun h => hlast (by
      rw [List.getLast?_singleton, h])
    rw [List.cons_append, List.nil_append, splitSep_two,
      if_neg (by simp [hx]), splitSep_two, if_pos ⟨rfl, rfl⟩]
  | x :: y :: b', tail, hsep, hlast => by
    have h' : ((decide (x = ':') && decide (y = ':')) ||
        hasSep (y :: b')) = false := hsep
    obtain ⟨hxy, hrest⟩ := Bool.or_eq_false_iff.mp h'
    have hxyp : ¬(x = ':' ∧ y = ':') := by
      rintro ⟨h1, h2⟩
      simp [h1, h2] at hxy
    have hlast' : (y :: b').getLast? ≠ some ':' := by
      rw [List.getLast?_cons_cons] at hlast
      exact hlast
    have ih := splitSep_append_sep (y :: b') tail hrest hlast'
    rw [List.cons_append] at ih
    rw [List.cons_append, List.cons_append, splitSep_two,
      if_neg hxyp, ih]

/-- C8 (counterexample): the input ":0x::m::T" splits into three parts with
package part ":0x"; the first normalization turns the package into 63 zeros
and a colon, and the second normalization re-splits one position differently
and pads again, producing a longer string — normalization is not idempotent
on this input. -/
theorem normalizeCoinType_not_idempotent :
    normalizeCoinType (normalizeCoinType (":0x::m::T".toList)) ≠
      normalizeCoinType (":0x::m::T".toList) := by
  decide

/-- C8 (amended): `normalizeCoinType` returns every malformed identifier
(one that does not split into exactly three "::"-separated parts) unchanged
without throwing, and it is idempotent on every input whose package part
contains no colon after removing the first "0x" — in particular on every
well-formed `0x<hex>::module::name` coin type.  Full idempotence over all
strings fails (see the counterexample). -/
theorem normalizeCoinType_amended :
    (∀ s : List Char, (splitSep s).length ≠ 3 → normalizeCoinType s = s) ∧
    (∀ (s p0 p1 p2 : List Char), splitSep s = [p0, p1, p2] →
      ':' ∉ replaceFirst0x p0 →
      normalizeCoinType (normalizeCoinType s) = normalizeCoinType s) := by
  constructor
  · intro s h
    unfold normalizeCoinType
    rcases hsp : splitSep s with _ | ⟨a, _ | ⟨b, _ | ⟨c, _ | ⟨e, t⟩⟩⟩⟩
    · rfl
    · rfl
    · rfl
    · rw [hsp] at h
      simp at h
    · rfl
  · intro s p0 p1 p2 hsplit hpkg
    have hy : normalizeCoinType s =
        '0' :: 'x' :: (padStart64 (replaceFirst0x p0) ++
          ':' :: ':' :: (p1 ++ ':' :: ':' :: p2)) := by
      unfold normalizeCoinType
      rw [hsplit]
    obtain ⟨hparts, hlasts⟩ := splitSep_parts s
    have hp1sep : hasSep p1 = false := by
      refine hparts p1 ?_
      rw [hsplit]
      simp
    have hp2sep : hasSep p2 = false := by
      refine hparts p2 ?_
      rw [hsplit]
      simp
    have hp1last : p1.getLast? ≠ some ':' := by
      refine hlasts p1 ?_
      rw [hsplit]
      show p1 ∈ [p0, p1]
      simp
    have hPnc : ':' ∉ padStart64 (replaceFirst0x p0) := by
      intro hc
      unfold padStart64 at hc
      rcases List.mem_append.mp hc with hcl | hcr
      · exact absurd (List.eq_of_mem_replicate hcl) (by decide)
      · exact hpkg hcr
    have hAnc : ':' ∉ ('0' :: 'x' :: padStart64 (replaceFirst0x p0)) := by
      intro hc
      rcases List.mem_cons.mp hc with h0 | hc
      · exact absurd h0 (by decide)
      rcases List.mem_cons.mp hc with h0 | hc
      · exact absurd h0 (by decide)
      · exact hPnc hc
    have hPlen : 64 ≤ (padStart64 (replaceFirst0x p0)).length := by
      unfold padStart64
      rw [List.length_append, List.length_replicate]
      omega
    have hysplit : splitSep ('0' :: 'x' :: (padStart64 (replaceFirst0x p0) ++
        ':' :: ':' :: (p1 ++ ':' :: ':' :: p2)))
        = ('0' :: 'x' :: padStart64 (replaceFirst0x p0)) :: p1 :: [p2] := by
      have h1 : '0' :: 'x' :: (padStart64 (replaceFirst0x p0) ++
          ':' :: ':' :: (p1 ++ ':' :: ':' :: p2))
          = ('0' :: 'x' :: padStart64 (replaceFirst0x p0)) ++
            ':' :: ':' :: (p1 ++ ':' :: ':' :: p2) := rfl
      rw [h1,
        splitSep_append_sep _ _ (hasSep_false_of_no_colon hAnc)
          (getLast?_ne_colon_of_no_colon hAnc),
        splitSep_append_sep p1 p2 hp1sep hp1last,
        splitSep_of_no_sep hp2sep]
    have hrf : replaceFirst0x
        ('0' :: 'x' :: padStart64 (replaceFirst0x p0)) =
        padStart64 (replaceFirst0x p0) := by
      show (if ('0' : Char) = '0' ∧
          ('x' :: padStart64 (replaceFirst0x p0)).head? = some 'x'
        then ('x' :: padStart64 (replaceFirst0x p0)).tail
        else '0' :: replaceFirst0x ('x' :: padStart64 (replaceFirst0x p0)))
        = padStart64 (replaceFirst0x p0)
      rw [if_pos ⟨rfl, rfl⟩]
      rfl
    have hps : padStart64 (padStart64 (replaceFirst0x p0)) =
        padStart64 (replaceFirst0x p0) := padStart64_of_ge hPlen
    rw [hy]
    conv_lhs => unfold normalizeCoinType
    rw [hysplit]
    show '0' :: 'x' :: (padStart64 (replaceFirst0x
        ('0' :: 'x' :: padStart64 (replaceFirst0x p0))) ++
      ':' :: ':' :: (p1 ++ ':' :: ':' :: p2)) = _
    rw [hrf, hps]

/-- Witness for `normalizeCoinType_amended`: idempotence on the well-formed
"0x2::sui::SUI" and pass-through on the malformed "abc". -/
theorem normalizeCoinType_amended_witness :
    normalizeCoinType (normalizeCoinType ("0x2::sui::SUI".toList)) =
      normalizeCoinType ("0x2::sui::SUI".toList) ∧
    normalizeCoinType ("abc".toList) = "abc".toList :=
  ⟨normalizeCoinType_amended.2 ("0x2::sui::SUI".toList) ("0x2".toList)
      ("sui".toList) ("SUI".toList) (by decide) (by decide),
    normalizeCoinType_amended.1 ("abc".toList) (by decide)⟩

end DefiDash
